import Mathlib

/-!
Verification of the concurrency primitives described by the repository's
specification against the script
`Multi-processing and Multi-threading in Python/Multi-processing/multi_processing.py`.
The script itself only calls into Python's `multiprocessing` library; the
functions it defines (`site_size`, `write`, `read`, `main`) are embedded from
the source, while the worker pool and the queue, whose code is not part of the
repository, are modelled from the specification (§4.1 WorkerPool,
§4.2 BoundedChannel, §5, §9).
-/

/-- Modelled from the spec: the worker pool of the `multiprocessing` library is
not part of the repository's sources.  Per §4.1, N workers pull from a single
FIFO backlog and a worker that finishes immediately pulls the next backlog
item.  `argmin l` is the index of the first minimal element of `l`: with `l`
the list of times at which each worker becomes free, it is the worker that
picks up the next task. -/
def argmin : List Nat → Nat
  | [] => 0
  | [_] => 0
  | x :: y :: xs =>
    let j := argmin (y :: xs)
    if x ≤ (y :: xs).getD j 0 then 0 else j + 1

/-- Modelled from the spec: given the free time of each worker and the
durations of the tasks in submission order, `schedule` assigns each task to
the earliest-free worker and returns the (start, completion) time of every
task, in submission order. -/
def schedule : List Nat → List Nat → List (Nat × Nat)
  | _, [] => []
  | free, d :: ds =>
    let j := argmin free
    let s := free.getD j 0
    (s, s + d) :: schedule (free.set j (s + d)) ds

/-- Modelled from the spec: a pool of `n` workers, all free at time 0, runs the
tasks with durations `ds` (§4.1 scheduling policy). -/
def poolRun (n : Nat) (ds : List Nat) : List (Nat × Nat) :=
  schedule (List.replicate n 0) ds

/-- Modelled from the spec: `join()` blocks until every submitted task has
produced a Result, hence it returns at the largest completion time. -/
def joinTime (rs : List (Nat × Nat)) : Nat :=
  rs.foldr (fun r m => max r.2 m) 0

/-- Durations, in hundredths of a second, of the five tasks of the script's
`apply_async` demo (`main`, the pool of 4 workers with 5 tasks), as recorded
in the output transcript quoted in the source. -/
def demoDurations : List Nat := [297, 258, 14, 150, 65]

theorem schedule_length (ds : List Nat) :
    ∀ free : List Nat, (schedule free ds).length = ds.length := by
  induction ds with
  | nil => intro free; rfl
  | cons d ds ih => intro free; simp [schedule, ih]

theorem le_joinTime (rs : List (Nat × Nat)) : ∀ r ∈ rs, r.2 ≤ joinTime rs := by
  induction rs with
  | nil => intro r hr; cases hr
  | cons a l ih =>
    intro r hr
    rcases List.mem_cons.mp hr with h | h
    · subst h
      exact Nat.le_max_left _ _
    · exact Nat.le_trans (ih r h) (Nat.le_max_right _ _)

/-- C1: for every pool of N ≥ 1 workers and M submitted tasks, `join()`
returns only after every one of the M tasks has produced a Result (one
Result per task, and the join time bounds every completion time).  In the
script's demo (4 workers, durations [2.97, 2.58, 0.14, 1.50, 0.65] s):
task 2 completes first, task 4 starts exactly when the first of the four
workers becomes free (at task 2's completion time 0.14 s), and `join()` does
not return before task 0, the longest, completes at 2.97 s. -/
theorem pool_join_after_all_tasks (n : Nat) (ds : List Nat) (h : 1 ≤ n) :
    (poolRun n ds).length = ds.length ∧
    (∀ r ∈ poolRun n ds, r.2 ≤ joinTime (poolRun n ds)) ∧
    poolRun 4 demoDurations = [(0, 297), (0, 258), (0, 14), (0, 150), (14, 79)] ∧
    (∀ r ∈ poolRun 4 demoDurations, 14 ≤ r.2) ∧
    ((poolRun 4 demoDurations).getD 4 (0, 0)).1 =
      ((poolRun 4 demoDurations).getD 2 (0, 0)).2 ∧
    joinTime (poolRun 4 demoDurations) = ((poolRun 4 demoDurations).getD 0 (0, 0)).2 := by
  refine ⟨schedule_length ds _, le_joinTime _, by decide, by decide, by decide, by decide⟩

/-- Instance of `pool_join_after_all_tasks` at the script's concrete pool:
4 workers and the five demo tasks. -/
theorem pool_join_after_all_tasks_witness :
    (poolRun 4 demoDurations).length = demoDurations.length ∧
    joinTime (poolRun 4 demoDurations) = ((poolRun 4 demoDurations).getD 0 (0, 0)).2 :=
  ⟨(pool_join_after_all_tasks 4 demoDurations (by decide)).1,
   (pool_join_after_all_tasks 4 demoDurations (by decide)).2.2.2.2.2⟩

/-- Modelled from the spec: the `multiprocessing.Queue` used by `write`/`read`
is library code, not in the repository's sources.  Per §3 and §4.2, a
BoundedChannel owns a slot buffer (a `capacity` of `none` models the script's
unbounded `Queue()`), and a closed flag set by the producer's `close`. -/
structure Channel (α : Type) where
  buffer : List α
  capacity : Option Nat
  closed : Bool
deriving DecidableEq, Repr

/-- Channel whose buffer is at capacity (a put would block); an unbounded
channel is never full. -/
def Channel.isFull {α : Type} (ch : Channel α) : Bool :=
  match ch.capacity with
  | none => false
  | some k => decide (k ≤ ch.buffer.length)

/-- Outcome of a `put`: success with the new channel state, blocking on a full
buffer, or the `ChannelClosed` error of §7. -/
inductive PutOutcome (α : Type) where
  | ok (ch : Channel α)
  | blocked
  | closedErr
deriving DecidableEq, Repr

/-- Outcome of a `get`: the head item with the new channel state, blocking on
an empty open channel, or the end-of-stream signal once closed and drained. -/
inductive GetOutcome (α : Type) where
  | ok (a : α) (ch : Channel α)
  | blocked
  | eof
deriving DecidableEq, Repr

/-- Modelled from the spec: `put(item)` fails with `ChannelClosed` after
`close()`, blocks while the buffer is at capacity, and otherwise inserts the
item at the tail (§4.2). -/
def Channel.put {α : Type} (ch : Channel α) (a : α) : PutOutcome α :=
  if ch.closed then .closedErr
  else if ch.isFull then .blocked
  else .ok { ch with buffer := ch.buffer ++ [a] }

/-- Modelled from the spec: `get()` removes and returns the head item (FIFO),
blocks while the buffer is empty and the channel is not closed, and returns
end-of-stream once closed with the buffer drained (§4.2). -/
def Channel.get {α : Type} (ch : Channel α) : GetOutcome α :=
  match ch.buffer with
  | a :: rest => .ok a { ch with buffer := rest }
  | [] => if ch.closed then .eof else .blocked

/-- Event of a single-producer/single-consumer interleaving: one attempted
`put` of a value, or one attempted `get`. -/
inductive ChanEv (α : Type) where
  | put (a : α)
  | get
deriving DecidableEq, Repr

/-- Runs an interleaving on a channel: each event in turn, an operation that
blocks or errors leaving the state unchanged.  Returns the final channel state
and the values returned by the successful gets, in order. -/
def Channel.runTrace {α : Type} : Channel α → List (ChanEv α) → Channel α × List α
  | ch, [] => (ch, [])
  | ch, .put a :: es =>
    match ch.put a with
    | .ok ch' => Channel.runTrace ch' es
    | _ => Channel.runTrace ch es
  | ch, .get :: es =>
    match ch.get with
    | .ok a ch' =>
      let r := Channel.runTrace ch' es
      (r.1, a :: r.2)
    | _ => Channel.runTrace ch es

/-- Holds when every event of the interleaving completes: no put ever finds
the channel closed or full, no get ever finds it empty — each blocking call
has been scheduled at the point of the run where it returns. -/
def Channel.validTrace {α : Type} : Channel α → List (ChanEv α) → Bool
  | _, [] => true
  | ch, .put a :: es =>
    match ch.put a with
    | .ok ch' => ch'.validTrace es
    | _ => false
  | ch, .get :: es =>
    match ch.get with
    | .ok _ ch' => ch'.validTrace es
    | _ => false

/-- Sequence of values passed to the successive put calls of an interleaving. -/
def putVals {α : Type} : List (ChanEv α) → List α
  | [] => []
  | .put a :: es => a :: putVals es
  | .get :: es => putVals es

/-- Channel as constructed by the script's `Queue()`: empty, unbounded, open. -/
def openChan (α : Type) : Channel α := ⟨[], none, false⟩

/-- Channel of capacity `k`, empty and open. -/
def boundedChan (α : Type) (k : Nat) : Channel α := ⟨[], some k, false⟩

/-- Interleaving realised by the script's producer/consumer demo: `write` puts
each of A, B, C and the `read` loop gets each in turn. -/
def demoTrace : List (ChanEv Char) :=
  [.put 'A', .get, .put 'B', .get, .put 'C', .get]

theorem runTrace_append_buffer {α : Type} (es : List (ChanEv α)) :
    ∀ ch : Channel α, ch.validTrace es = true →
      (ch.runTrace es).2 ++ (ch.runTrace es).1.buffer = ch.buffer ++ putVals es := by
  induction es with
  | nil => intro ch _; simp [Channel.runTrace, putVals]
  | cons e es ih =>
    intro ch hv
    cases e with
    | put a =>
      cases hput : ch.put a with
      | ok ch' =>
        have hv' : ch'.validTrace es = true := by
          simpa [Channel.validTrace, hput] using hv
        have hbuf : ch'.buffer = ch.buffer ++ [a] := by
          revert hput
          unfold Channel.put
          split
          · intro h; cases h
          · split
            · intro h; cases h
            · intro h; cases h; rfl
        simp only [Channel.runTrace, hput, putVals]
        rw [ih ch' hv', hbuf, List.append_assoc]
        rfl
      | blocked => simp [Channel.validTrace, hput] at hv
      | closedErr => simp [Channel.validTrace, hput] at hv
    | get =>
      cases hget : ch.get with
      | ok a ch' =>
        have hv' : ch'.validTrace es = true := by
          simpa [Channel.validTrace, hget] using hv
        have hbuf : ch.buffer = a :: ch'.buffer := by
          revert hget
          unfold Channel.get
          split
          · rename_i b rest heq
            intro h
            cases h
            simpa using heq
          · split <;> intro h <;> cases h
        simp only [Channel.runTrace, hget, putVals]
        rw [hbuf]
        simp [List.cons_append, ih ch' hv']
      | blocked => simp [Channel.validTrace, hget] at hv
      | eof => simp [Channel.validTrace, hget] at hv

/-- C3: FIFO law — for every single-producer/single-consumer interleaving in
which every call completes, the values returned by the successive gets
followed by what remains buffered equal the values passed to the successive
puts; in particular once the buffer is drained the get sequence equals the put
sequence exactly, and in the script's demo the consumer retrieves A, B, C in
that order. -/
theorem channel_fifo_law {α : Type} (es : List (ChanEv α)) (ch : Channel α)
    (hv : ch.validTrace es = true) (hb : ch.buffer = []) :
    (ch.runTrace es).2 ++ (ch.runTrace es).1.buffer = putVals es ∧
    ((ch.runTrace es).1.buffer = [] → (ch.runTrace es).2 = putVals es) ∧
    ((openChan Char).runTrace demoTrace).2 = ['A', 'B', 'C'] := by
  have h := runTrace_append_buffer es ch hv
  rw [hb, List.nil_append] at h
  refine ⟨h, ?_, by decide⟩
  intro hdr
  rw [hdr, List.append_nil] at h
  exact h

/-- Instance of `channel_fifo_law` at the script's queue and the demo
interleaving: the three retrieved values are exactly A, B, C. -/
theorem channel_fifo_law_witness :
    ((openChan Char).runTrace demoTrace).2 ++
        ((openChan Char).runTrace demoTrace).1.buffer = putVals demoTrace ∧
    ((openChan Char).runTrace demoTrace).2 = ['A', 'B', 'C'] :=
  ⟨(channel_fifo_law demoTrace (openChan Char) (by decide) rfl).1,
   (channel_fifo_law demoTrace (openChan Char) (by decide) rfl).2.2⟩

theorem put_ok_inv {α : Type} {ch ch' : Channel α} {a : α}
    (h : ch.put a = PutOutcome.ok ch') :
    ch'.buffer = ch.buffer ++ [a] ∧ ch'.capacity = ch.capacity ∧
    ch'.closed = ch.closed ∧ ch.closed = false ∧ ch.isFull = false := by
  revert h
  unfold Channel.put
  split
  · intro h; cases h
  · rename_i hcl
    split
    · intro h; cases h
    · rename_i hfull
      intro h
      cases h
      exact ⟨rfl, rfl, rfl, by simpa using hcl, by simpa using hfull⟩

theorem get_ok_inv {α : Type} {ch ch' : Channel α} {a : α}
    (h : ch.get = GetOutcome.ok a ch') :
    ch.buffer = a :: ch'.buffer ∧ ch'.capacity = ch.capacity ∧
    ch'.closed = ch.closed := by
  revert h
  unfold Channel.get
  split
  · rename_i b rest heq
    intro h
    cases h
    exact ⟨by simpa using heq, rfl, rfl⟩
  · split <;> intro h <;> cases h

theorem runTrace_capacity_invariant {α : Type} (K : Nat) (es : List (ChanEv α)) :
    ∀ ch : Channel α, ch.capacity = some K → ch.buffer.length ≤ K →
      (ch.runTrace es).1.capacity = some K ∧ (ch.runTrace es).1.buffer.length ≤ K := by
  induction es with
  | nil => intro ch hc hb; exact ⟨hc, hb⟩
  | cons e es ih =>
    intro ch hc hb
    cases e with
    | put a =>
      cases hput : ch.put a with
      | ok ch' =>
        obtain ⟨hbuf, hcap, _, _, hfull⟩ := put_ok_inv hput
        have hlt : ch.buffer.length < K := by
          have hnot : ¬ K ≤ ch.buffer.length := by
            simpa [Channel.isFull, hc] using hfull
          omega
        have hlb : ch'.buffer.length = ch.buffer.length + 1 := by
          simp [hbuf]
        have hlen : ch'.buffer.length ≤ K := by omega
        simpa [Channel.runTrace, hput] using ih ch' (hcap.trans hc) hlen
      | blocked => simpa [Channel.runTrace, hput] using ih ch hc hb
      | closedErr => simpa [Channel.runTrace, hput] using ih ch hc hb
    | get =>
      cases hget : ch.get with
      | ok a ch' =>
        obtain ⟨hbuf, hcap, _⟩ := get_ok_inv hget
        have hlb : ch.buffer.length = ch'.buffer.length + 1 := by
          simp [hbuf]
        have hlen : ch'.buffer.length ≤ K := by omega
        simpa [Channel.runTrace, hget] using ih ch' (hcap.trans hc) hlen
      | blocked => simpa [Channel.runTrace, hget] using ih ch hc hb
      | eof => simpa [Channel.runTrace, hget] using ih ch hc hb

/-- Interleaving consisting only of puts of the values `vs`, in order. -/
def putsOf {α : Type} (vs : List α) : List (ChanEv α) :=
  vs.map ChanEv.put

theorem runTrace_puts {α : Type} (K : Nat) (vs : List α) :
    ∀ ch : Channel α, ch.closed = false → ch.capacity = some K →
      ch.buffer.length + vs.length ≤ K →
      (ch.runTrace (putsOf vs)).1 = { ch with buffer := ch.buffer ++ vs } := by
  induction vs with
  | nil => intro ch _ _ _; simp [putsOf, Channel.runTrace]
  | cons v vs ih =>
    intro ch hcl hc hlen
    have hfull : ch.isFull = false := by
      simp only [Channel.isFull, hc, decide_eq_false_iff_not]
      simp at hlen
      omega
    have hput : ch.put v = PutOutcome.ok { ch with buffer := ch.buffer ++ [v] } := by
      simp [Channel.put, hcl, hfull]
    have hrec := ih { ch with buffer := ch.buffer ++ [v] } (by simpa using hcl)
      (by simpa using hc) (by simp; simp at hlen; omega)
    simp only [putsOf, List.map_cons, Channel.runTrace, hput]
    rw [show (putsOf vs : List (ChanEv α)) = vs.map ChanEv.put from rfl] at hrec
    rw [hrec]
    simp

/-- C5: for every channel of capacity K the occupied-slot count stays between
0 and K under every interleaving of puts and gets, and after K successive puts
with no get the (K+1)-th put blocks — remaining blocked until a get occurs, a
successful get making the next put succeed. -/
theorem channel_capacity_spec {α : Type} (K : Nat) (es : List (ChanEv α))
    (ch : Channel α) (hc : ch.capacity = some K) (hb : ch.buffer.length ≤ K) :
    (ch.runTrace es).1.buffer.length ≤ K ∧
    0 ≤ (ch.runTrace es).1.buffer.length ∧
    ∀ vs : List α, vs.length = K → ∀ a : α,
      ((boundedChan α K).runTrace (putsOf vs)).1.put a = PutOutcome.blocked ∧
      ∀ x ch', ((boundedChan α K).runTrace (putsOf vs)).1.get = GetOutcome.ok x ch' →
        ∃ ch'' : Channel α, ch'.put a = PutOutcome.ok ch'' := by
  refine ⟨(runTrace_capacity_invariant K es ch hc hb).2, Nat.zero_le _, ?_⟩
  intro vs hvs a
  have hrun : ((boundedChan α K).runTrace (putsOf vs)).1 =
      { boundedChan α K with buffer := vs } := by
    have h := runTrace_puts K vs (boundedChan α K) rfl rfl (by simp [boundedChan, hvs])
    simpa [boundedChan] using h
  constructor
  · rw [hrun]
    simp [Channel.put, Channel.isFull, boundedChan, hvs]
  · intro x ch' hget
    obtain ⟨hbuf, hcap, hclosed⟩ := get_ok_inv hget
    rw [hrun] at hbuf hcap hclosed
    simp [boundedChan] at hbuf hcap hclosed
    have hlen : ch'.buffer.length + 1 = K := by
      have := congrArg List.length hbuf
      simpa [hvs] using this.symm
    refine ⟨{ ch' with buffer := ch'.buffer ++ [a] }, ?_⟩
    have hfull : ch'.isFull = false := by
      simp only [Channel.isFull, hcap, decide_eq_false_iff_not]
      omega
    simp [Channel.put, hclosed, hfull]

/-- Instance of `channel_capacity_spec` at a channel of capacity 2 holding
two items: the occupancy bound holds after the demo interleaving, and a third
put on the full channel blocks. -/
theorem channel_capacity_spec_witness :
    (((boundedChan Char 2).runTrace [ChanEv.put 'A', ChanEv.get, ChanEv.put 'B']).1.buffer.length ≤ 2) ∧
    ((boundedChan Char 2).runTrace (putsOf ['A', 'B'])).1.put 'C' = PutOutcome.blocked :=
  ⟨(channel_capacity_spec 2 [ChanEv.put 'A', ChanEv.get, ChanEv.put 'B']
      (boundedChan Char 2) rfl (by decide)).1,
   ((channel_capacity_spec 2 [] (boundedChan Char 2) rfl (by decide)).2.2
      ['A', 'B'] rfl 'C').1⟩

/-- C6: `get()` blocks exactly while the buffer is empty and the channel is
not closed; once closed with the buffer drained it returns the end-of-stream
signal rather than blocking; and on a nonempty buffer it removes and returns
the head item (FIFO). -/
theorem channel_get_spec {α : Type} (ch : Channel α) :
    (ch.get = GetOutcome.blocked ↔ ch.buffer = [] ∧ ch.closed = false) ∧
    (ch.buffer = [] → ch.closed = true → ch.get = GetOutcome.eof) ∧
    (∀ a rest, ch.buffer = a :: rest →
      ch.get = GetOutcome.ok a { ch with buffer := rest }) := by
  obtain ⟨buf, cap, cl⟩ := ch
  cases buf <;> cases cl <;> simp [Channel.get]

/-- Instance of `channel_get_spec` at concrete channels: a drained closed
channel yields end-of-stream, and a buffered channel yields its head. -/
theorem channel_get_spec_witness :
    (Channel.mk ([] : List Char) none true).get = GetOutcome.eof ∧
    (Channel.mk ['A', 'B'] none false).get =
      GetOutcome.ok 'A' (Channel.mk ['B'] none false) :=
  ⟨(channel_get_spec (Channel.mk ([] : List Char) none true)).2.1 rfl rfl,
   (channel_get_spec (Channel.mk ['A', 'B'] none false)).2.2 'A' ['B'] rfl⟩

/-- List of URLs fanned out to the pool in the script's `imap_unordered` demo
(the `sites` global of the source). -/
def sites : List String :=
  ["http://www.cisco.com",
   "http://www.cnn.com",
   "http://www.facebook.com",
   "http://www.jpython.org",
   "http://www.pypy.org",
   "http://www.python.org",
   "http://www.twitter.com",
   "https://www.yahoo.com/"]

/-- Embedding of the source's `site_size(url)`: it fetches the page and
returns the pair of the input URL and the page's content length.  The network
fetch `len(requests.get(url).content)` is abstracted as the function
`contentLen`; the source deliberately returns the input `url` as the first
component so that each unordered result can be correlated to its input. -/
def site_size (contentLen : String → Nat) (url : String) : String × Nat :=
  (url, contentLen url)

/-- Modelled from the spec: `Pool.imap_unordered` is library code, not in the
repository's sources.  Per §4.1, `map_unordered` yields one Result per task in
completion order; `order`, the list of task indices in the order the tasks
complete, determines which Result is yielded next. -/
def imapUnordered (f : String → String × Nat) (tasks : List String)
    (order : List Nat) : List (String × Nat) :=
  order.map (fun i => (tasks.map f).getD i ("", 0))

theorem map_getD_range {β : Type} (l : List β) (d : β) :
    (List.range l.length).map (fun i => l.getD i d) = l := by
  induction l with
  | nil => rfl
  | cons a t ih =>
    rw [List.length_cons, List.range_succ_eq_map, List.map_cons, List.map_map]
    simp only [Function.comp_def, Nat.succ_eq_add_one, List.getD_cons_zero,
      List.getD_cons_succ]
    rw [ih]

/-- C2: for every task list and every completion order (a permutation of the
task indices), `imap_unordered` yields exactly one Result per submitted task —
a permutation of the per-task Results — and every yielded Result carries its
original input URL as correlation data: the Result is recovered from its own
first component. -/
theorem imap_unordered_results (f : String → Nat) (tasks : List String)
    (order : List Nat) (h : order.Perm (List.range tasks.length)) :
    (imapUnordered (site_size f) tasks order).Perm (tasks.map (site_size f)) ∧
    ∀ r ∈ imapUnordered (site_size f) tasks order,
      r.1 ∈ tasks ∧ site_size f r.1 = r := by
  have hperm : (imapUnordered (site_size f) tasks order).Perm
      (tasks.map (site_size f)) := by
    have hmap := h.map (fun i => (tasks.map (site_size f)).getD i ("", 0))
    have hlen : tasks.length = (tasks.map (site_size f)).length := by
      simp
    rw [hlen] at hmap
    rw [map_getD_range (tasks.map (site_size f)) ("", 0)] at hmap
    exact hmap
  refine ⟨hperm, ?_⟩
  intro r hr
  have hr' : r ∈ tasks.map (site_size f) := hperm.mem_iff.mp hr
  obtain ⟨url, hurl, hru⟩ := List.mem_map.mp hr'
  constructor
  · have : r.1 = url := by rw [← hru]; rfl
    rw [this]
    exact hurl
  · rw [← hru]
    rfl

/-- Instance of `imap_unordered_results` at the script's `sites` list, with
page sizes abstracted as string length and the completion order observed in
the source's transcript (pypy, cisco, cnn, python, facebook, jpython,
twitter, yahoo). -/
theorem imap_unordered_results_witness :
    (imapUnordered (site_size String.length) sites
        [4, 0, 1, 5, 2, 3, 6, 7]).Perm (sites.map (site_size String.length)) :=
  (imap_unordered_results String.length sites [4, 0, 1, 5, 2, 3, 6, 7]
    (by decide)).1

/-- Modelled from the spec: the pool object of the `multiprocessing` library
is not part of the repository's sources.  Per §3 and §4.1 of the spec, a pool
carries an unbounded task backlog and a flag set once `close()` has been
called, after which no submission is accepted. -/
structure Pool (τ : Type) where
  closed : Bool
  backlog : List τ
deriving DecidableEq, Repr

/-- Structural misuse errors of §7 of the spec. -/
inductive PoolError where
  | poolClosed
  | poolNotClosed
deriving DecidableEq, Repr

/-- Modelled from the spec: `submit(task)` enqueues the task on the backlog
and fails with `PoolClosed` if `close()` was already called (§4.1). -/
def Pool.submit {τ : Type} (p : Pool τ) (t : τ) : Except PoolError (Pool τ) :=
  if p.closed then Except.error PoolError.poolClosed
  else Except.ok { p with backlog := p.backlog ++ [t] }

/-- Modelled from the spec: `close()` marks the pool as not accepting further
submissions (§4.1); the script calls it before `join()`. -/
def Pool.close {τ : Type} (p : Pool τ) : Pool τ :=
  { p with closed := true }

/-- Modelled from the spec: `join()` must be preceded by `close()`; on an open
pool it fails with `PoolNotClosed` rather than hanging silently (§4.1). -/
def Pool.join {τ : Type} (p : Pool τ) : Except PoolError Unit :=
  if p.closed then Except.ok () else Except.error PoolError.poolNotClosed

/-- C4: submitting a task after `close()` has been called always fails with
the `PoolClosed` error and is never silently dropped — the submission is
reported as an error and never accepted, for every pool, every task and every
pool state in which the closed flag is set. -/
theorem submit_after_close_fails {τ : Type} (p : Pool τ) (t : τ) :
    p.close.submit t = Except.error PoolError.poolClosed ∧
    (∀ p' : Pool τ, p.close.submit t ≠ Except.ok p') ∧
    ∀ q : Pool τ, q.closed = true → q.submit t = Except.error PoolError.poolClosed := by
  have hgen : ∀ q : Pool τ, q.closed = true →
      q.submit t = Except.error PoolError.poolClosed := by
    intro q hq
    simp [Pool.submit, hq]
  have h : p.close.submit t = Except.error PoolError.poolClosed :=
    hgen p.close rfl
  refine ⟨h, ?_, hgen⟩
  intro p' hp
  rw [h] at hp
  cases hp

/-- Instance of `submit_after_close_fails` at a concrete pool and task. -/
theorem submit_after_close_fails_witness :
    (Pool.mk false ([] : List Nat)).close.submit 7 =
      Except.error PoolError.poolClosed :=
  (submit_after_close_fails (Pool.mk false ([] : List Nat)) 7).1

/-- C8: calling `join()` on a pool on which `close()` has not yet been called
fails with the `PoolNotClosed` error rather than hanging silently, for every
open pool state; after `close()` it succeeds. -/
theorem join_before_close_fails {τ : Type} (p : Pool τ) (h : p.closed = false) :
    p.join = Except.error PoolError.poolNotClosed ∧
    p.close.join = Except.ok () := by
  constructor
  · simp [Pool.join, h]
  · simp [Pool.join, Pool.close]

/-- Instance of `join_before_close_fails` at a freshly constructed pool. -/
theorem join_before_close_fails_witness :
    (Pool.mk false ([] : List Nat)).join = Except.error PoolError.poolNotClosed ∧
    (Pool.mk false ([] : List Nat)).close.join = Except.ok () :=
  join_before_close_fails (Pool.mk false ([] : List Nat)) rfl

/-- Modelled from the spec: §9 replaces the abrupt `terminate()` used by the
script's parent process with a cancellation token checked cooperatively at
each blocking `get` — a consumer is either running (with the log of values it
has retrieved) or cancelled. -/
inductive ConsumerState (α : Type) where
  | running (log : List α)
  | cancelled
deriving DecidableEq, Repr

/-- Modelled from the spec: one step of the cancellable consumer.  With the
cancellation token set the consumer terminates at once, even when its `get`
would block; otherwise it performs one `get`, a blocking outcome leaving it
unchanged (§4.2 cancel, §9). -/
def consumerStep {α : Type} (ch : Channel α) (cancel : Bool) :
    ConsumerState α → Channel α × ConsumerState α
  | ConsumerState.running log =>
    if cancel then (ch, ConsumerState.cancelled)
    else
      match ch.get with
      | GetOutcome.ok a ch' => (ch', ConsumerState.running (log ++ [a]))
      | _ => (ch, ConsumerState.running log)
  | ConsumerState.cancelled => (ch, ConsumerState.cancelled)

/-- C7: a consumer blocked in `get` on an empty, open channel (where `get`
indeed blocks) terminates promptly — in one step — once cancelled, rather
than blocking indefinitely; and cancelling the consumer in any state (in the
script: after the producer has finished and been joined) terminates it
without error. -/
theorem cancel_unblocks_consumer {α : Type} (ch : Channel α) (log : List α)
    (hb : ch.buffer = []) (hcl : ch.closed = false) :
    ch.get = GetOutcome.blocked ∧
    consumerStep ch true (ConsumerState.running log) = (ch, ConsumerState.cancelled) ∧
    ∀ s : ConsumerState α, (consumerStep ch true s).2 = ConsumerState.cancelled := by
  refine ⟨by simp [Channel.get, hb, hcl], by simp [consumerStep], ?_⟩
  intro s
  cases s <;> simp [consumerStep]

/-- Instance of `cancel_unblocks_consumer` at the script's empty open queue. -/
theorem cancel_unblocks_consumer_witness :
    (openChan Char).get = GetOutcome.blocked ∧
    consumerStep (openChan Char) true (ConsumerState.running []) =
      (openChan Char, ConsumerState.cancelled) :=
  ⟨(cancel_unblocks_consumer (openChan Char) [] rfl rfl).1,
   (cancel_unblocks_consumer (openChan Char) [] rfl rfl).2.1⟩

/-- Queue contents after the producer may have put one more item between two
iterations of the consumer's loop: the item, if any, joins the tail. -/
def enqueueOpt {α : Type} (q : List α) : Option α → List α
  | some a => q ++ [a]
  | none => q

/-- State of the source's `read(q)` process: either still in its retrieval
loop, with the current queue contents and the values printed so far, or
returned normally. -/
inductive ReadState (α : Type) where
  | running (q : List α) (log : List α)
  | done
deriving DecidableEq, Repr

/-- Embedding of one iteration of the loop of the source's `read(q)`:
`val = q.get(block=True)` followed by the print.  The loop is `while True`
with no break, return or raise — a blocking `get` without timeout never
raises — so no branch of the body leads to `done`; a `get` that blocks on an
empty queue leaves the state unchanged.  `arr` is an item the producer may
have put since the previous iteration. -/
def readStep {α : Type} : ReadState α → Option α → ReadState α
  | ReadState.running q log, arr =>
    match enqueueOpt q arr with
    | a :: rest => ReadState.running rest (log ++ [a])
    | [] => ReadState.running [] log
  | ReadState.done, _ => ReadState.done

/-- Runs the consumer for one step per entry of `arrs`, each entry being the
item the producer put before that step, if any. -/
def readRun {α : Type} (s : ReadState α) (arrs : List (Option α)) : ReadState α :=
  arrs.foldl readStep s

theorem readStep_running {α : Type} (q log : List α) (arr : Option α) :
    ∃ q' log', readStep (ReadState.running q log) arr = ReadState.running q' log' := by
  cases h : enqueueOpt q arr with
  | nil => exact ⟨[], log, by simp [readStep, h]⟩
  | cons a rest => exact ⟨rest, log ++ [a], by simp [readStep, h]⟩

theorem readRun_running {α : Type} (arrs : List (Option α)) :
    ∀ q log : List α, ∃ q' log',
      readRun (ReadState.running q log) arrs = ReadState.running q' log' := by
  induction arrs with
  | nil => intro q log; exact ⟨q, log, rfl⟩
  | cons a arrs ih =>
    intro q log
    obtain ⟨q1, log1, hstep⟩ := readStep_running q log a
    obtain ⟨q', log', hrun⟩ := ih q1 log1
    refine ⟨q', log', ?_⟩
    simp only [readRun, List.foldl_cons, hstep]
    exact hrun

/-- C9: the consumer `read` never terminates on its own — for every queue
content and every sequence of items it receives, after any number of loop
iterations it is still in its retrieval loop and has not returned normally,
so only external forced termination by the parent (`p_r.terminate()`) ends
it. -/
theorem read_never_terminates {α : Type} (q log : List α) (arrs : List (Option α)) :
    (∃ q' log', readRun (ReadState.running q log) arrs = ReadState.running q' log') ∧
    readRun (ReadState.running q log) arrs ≠ ReadState.done := by
  obtain ⟨q', log', hr⟩ := readRun_running arrs q log
  refine ⟨⟨q', log', hr⟩, ?_⟩
  rw [hr]
  intro hc
  cases hc

/-- Embedding of the source's `write(q)`: for each `c` in A, B, C in order it
calls `q.put(c)` (the prints and random sleeps touch no channel state).
Returns the final channel together with the values put, in order; on the
script's unbounded open queue every put succeeds.  The function is total, so
the producer returns after its three puts and the parent's `p_w.join()`
completes. -/
def write (ch : Channel Char) : Channel Char × List Char :=
  List.foldl
    (fun acc c =>
      match acc.1.put c with
      | PutOutcome.ok ch' => (ch', acc.2 ++ [c])
      | _ => acc)
    (ch, []) ['A', 'B', 'C']

/-- C10: on every open unbounded queue — as constructed by the script —
`write` performs exactly three puts with the values A, B, C in that order and
then returns, leaving the three values appended to the queue in order. -/
theorem write_puts_exactly_ABC (ch : Channel Char) (hcl : ch.closed = false)
    (hc : ch.capacity = none) :
    (write ch).2 = ['A', 'B', 'C'] ∧
    (write ch).1 = { ch with buffer := ch.buffer ++ ['A', 'B', 'C'] } := by
  have hput : ∀ (d : Channel Char) (c : Char), d.closed = false → d.capacity = none →
      d.put c = PutOutcome.ok { d with buffer := d.buffer ++ [c] } := by
    intro d c hdcl hdc
    have hfull : d.isFull = false := by
      simp [Channel.isFull, hdc]
    simp [Channel.put, hdcl, hfull]
  have h1 := hput ch 'A' hcl hc
  have h2 := hput { ch with buffer := ch.buffer ++ ['A'] } 'B' hcl hc
  have h3 := hput { ch with buffer := ch.buffer ++ ['A', 'B'] } 'C' hcl hc
  constructor
  · simp [write, h1, h2, h3]
  · simp [write, h1, h2, h3, List.append_assoc]

/-- Instance of `write_puts_exactly_ABC` at the script's freshly constructed
queue: the values put are exactly A, B, C. -/
theorem write_puts_exactly_ABC_witness :
    (write (openChan Char)).2 = ['A', 'B', 'C'] :=
  (write_puts_exactly_ABC (openChan Char) rfl rfl).1
